import Mathlib

/-!
Verification of the expotion-core plugin loader (`src/expotion_core/loader.py`,
`src/expotion_core/plugin.py`) against its natural-language specification.

Shallow embedding notes.

* A `Plugin` models an `ExpotionPlugin` instance: its descriptor data
  (`name`, `version`, `dependencies`), the mutable lifecycle state
  (`enabled`, `app`), and the behaviour of its overridable hooks.  Hooks are
  arbitrary Python code, so each hook is modelled by the only aspects the
  loader can observe: whether the call raises, and (for `healthcheck`) the
  value it returns.  The Flask application object is opaque to the loader, so
  the shared application context is modelled as a `Nat` token.
* The registry `self._plugins` is a Python dict keyed by `plugin.name`
  (insertion `self._plugins[plugin.name] = plugin`), so every key equals the
  name of the stored plugin and keys are unique.  It is embedded as an
  insertion-ordered `List Plugin`; dict well-formedness is the hypothesis
  that the names in the list are `Nodup`.  Iteration order of a Python dict
  is insertion order, i.e. list order.
* A `Candidate` models a plugin class handed to `_register_plugin_class`:
  calling it (`plugin_class()`) may raise (`constructionFails`), otherwise it
  yields a fresh instance with `enabled = True` and `_app = None`
  (`ExpotionPlugin.__init__`).
* Discovery (`_load_from_entry_points`, `_load_from_directory`) enumerates
  the filesystem and the interpreter's entry-point metadata; each source is
  modelled by the sequence of candidates it yields (per-item load failures
  are caught and logged in the source, contributing no candidate).
* Hook invocations observable to a caller are reported as a `HookEvent`
  trace alongside the state, so that claims such as "the duplicate's
  `on_load` is not invoked" are statable.
-/

/-- An `ExpotionPlugin` instance (`plugin.py`): descriptor data, lifecycle
state (`_enabled`, `_app`), and the observable behaviour of its hooks. -/
structure Plugin where
  name : String
  version : String
  dependencies : List String
  enabled : Bool
  app : Option Nat
  initAppRaises : Bool
  onUnloadRaises : Bool
  healthRaises : Bool
  healthMsg : String
  healthResult : List (String × String)
deriving DecidableEq, Repr

/-- A plugin class as passed to `_register_plugin_class`: constructing it may
raise; otherwise it produces an instance described by the remaining fields. -/
structure Candidate where
  constructionFails : Bool
  name : String
  version : String
  dependencies : List String
  onLoadRaises : Bool
  initAppRaises : Bool
  onUnloadRaises : Bool
  healthRaises : Bool
  healthMsg : String
  healthResult : List (String × String)
deriving DecidableEq, Repr

/-- `plugin_class()` for a candidate whose construction succeeds:
`ExpotionPlugin.__init__` sets `_enabled = True` and `_app = None`. -/
def construct (c : Candidate) : Plugin :=
  { name := c.name
    version := c.version
    dependencies := c.dependencies
    enabled := true
    app := none
    initAppRaises := c.initAppRaises
    onUnloadRaises := c.onUnloadRaises
    healthRaises := c.healthRaises
    healthMsg := c.healthMsg
    healthResult := c.healthResult }

/-- State of a `PluginLoader`: the bound Flask app (if any), the registry
`self._plugins` in insertion order, the disable-list
`self._disabled_plugins`, and whether `self._plugins_dir` is set (the
`if self._plugins_dir:` guard in `load_all`). -/
structure LoaderState where
  app : Option Nat
  plugins : List Plugin
  disabled : List String
  pluginsDirSet : Bool
deriving DecidableEq, Repr

/-- An observable hook invocation performed by the loader. -/
inductive HookEvent where
  | onLoad (name : String)
  | initApp (name : String)
  | onUnload (name : String)
deriving DecidableEq, Repr

/-- The list of registry keys, i.e. the names of the stored plugins. -/
def pluginNames (l : List Plugin) : List String :=
  l.map Plugin.name

/-- `self._plugins.get(name)`: dict lookup by key.  Because every key of the
source dict is the stored plugin's name, it is `find?` by name here. -/
def findPlugin (ps : List Plugin) (n : String) : Option Plugin :=
  ps.find? (fun p => p.name == n)

/-- `_register_plugin_class(plugin_class, source)` (loader.py lines 140-162):
construct the instance (a raise is caught: no effect), skip when the name is
disabled, skip when the name is already registered, invoke `on_load()` (a
raise is caught before the dict insertion: no effect on the registry), then
insert under the instance's name.  The `source` argument is only logged and
has no behavioural effect, so it is not modelled. -/
def registerPluginClass (st : LoaderState) (c : Candidate) :
    LoaderState × List HookEvent :=
  if c.constructionFails then (st, [])
  else
    let p := construct c
    if p.name ∈ st.disabled then (st, [])
    else if (findPlugin st.plugins p.name).isSome then (st, [])
    else if c.onLoadRaises then (st, [HookEvent.onLoad p.name])
    else ({ st with plugins := st.plugins ++ [p] }, [HookEvent.onLoad p.name])

/-- Register a sequence of discovered candidates in order, concatenating the
hook-event traces (the per-candidate loops of `_load_from_entry_points` and
`_load_from_directory`, whose per-item try/except never aborts the loop). -/
def registerAll (st : LoaderState) (cs : List Candidate) :
    LoaderState × List HookEvent :=
  cs.foldl (fun acc c =>
    let r := registerPluginClass acc.1 c
    (r.1, acc.2 ++ r.2)) (st, [])

/-- One step of the recursive `visit` of `_sort_by_dependencies`: the DFS
state is the visited-set (a Python `set`, embedded as the list of its
elements) and the accumulating `result` list. -/
structure VisitState where
  visited : List String
  result : List Plugin
deriving DecidableEq, Repr

/-- The inner `visit(name)` of `_sort_by_dependencies` (loader.py lines
185-195): skip if visited, mark visited, look the name up, recurse into each
declared dependency that is itself registered, then append the plugin.
`fuel` bounds the recursion depth of the embedding; `visit_stable` below
shows any fuel of at least `unvisited + 1` computes the fixed point, which is
how the always-terminating Python recursion is reflected. -/
def visit (ps : List Plugin) : Nat → String → VisitState → VisitState
  | 0, _, s => s
  | fuel+1, n, s =>
    if n ∈ s.visited then s
    else
      let s1 : VisitState := ⟨n :: s.visited, s.result⟩
      match findPlugin ps n with
      | none => s1
      | some p =>
        let s2 := p.dependencies.foldl
          (fun acc d =>
            if (findPlugin ps d).isSome then visit ps fuel d acc else acc) s1
        ⟨s2.visited, s2.result ++ [p]⟩

/-- `_sort_by_dependencies` run with an explicit recursion-depth budget:
`for name in self._plugins: visit(name)` iterates the registry keys in
insertion order. -/
def sortByDependenciesFuel (ps : List Plugin) (fuel : Nat) : VisitState :=
  ps.foldl (fun s p => visit ps fuel p.name s) ⟨[], []⟩

/-- `_sort_by_dependencies` (loader.py lines 180-200).  The fuel
`ps.length + 1` exceeds the deepest possible recursion (each nested call
marks a fresh registered name as visited), so this equals the Python result;
`sortByDependenciesFuel_stable` proves the budget is not binding. -/
def sortByDependencies (ps : List Plugin) : List Plugin :=
  (sortByDependenciesFuel ps (ps.length + 1)).result

/-- The update `_init_all_plugins` performs on one plugin: `plugin._app`
is assigned the shared app, then `init_app(app)` is invoked; if it raises,
the exception is caught and `plugin._enabled = False`. -/
def initAppUpdate (a : Nat) (q : Plugin) : Plugin :=
  { q with app := some a, enabled := if q.initAppRaises then false else q.enabled }

/-- Apply `initAppUpdate` to the registry entry with the given name (the
Python loop mutates the shared object aliased by the registry dict). -/
def initOne (a : Nat) (ps : List Plugin) (n : String) : List Plugin :=
  ps.map (fun q => if q.name == n then initAppUpdate a q else q)

/-- `_init_all_plugins` (loader.py lines 164-178): no-op without a bound app;
otherwise initialize every plugin in dependency order, isolating per-plugin
`init_app` failures (caught, plugin disabled, loop continues). -/
def initAllPlugins (st : LoaderState) : LoaderState × List HookEvent :=
  match st.app with
  | none => (st, [])
  | some a =>
    let ordered := sortByDependencies st.plugins
    ({ st with plugins := ordered.foldl (fun acc p => initOne a acc p.name) st.plugins },
     ordered.map (fun p => HookEvent.initApp p.name))

/-- `load_all` (loader.py lines 64-75): entry-point discovery, then directory
discovery when `self._plugins_dir` is set, then the initialization pass.
Each discovery source is modelled by the candidate sequence it yields. -/
def loadAll (st : LoaderState) (epCands dirCands : List Candidate) :
    LoaderState × List HookEvent :=
  let r1 := registerAll st epCands
  let r2 := if r1.1.pluginsDirSet then registerAll r1.1 dirCands else (r1.1, [])
  let r3 := initAllPlugins r2.1
  (r3.1, r1.2 ++ r2.2 ++ r3.2)

/-- `get_plugin(name)` (loader.py lines 202-204). -/
def getPlugin (st : LoaderState) (n : String) : Option Plugin :=
  findPlugin st.plugins n

/-- `get_all_plugins` (loader.py lines 206-208): the active plugins, in
registry iteration order. -/
def getAllPlugins (st : LoaderState) : List Plugin :=
  st.plugins.filter (fun p => p.enabled)

/-- The observable outcome of one `plugin.healthcheck()` call: either the
payload the hook returns, or the raised exception's message. -/
def healthHook (p : Plugin) : Except String (List (String × String)) :=
  if p.healthRaises then Except.error p.healthMsg else Except.ok p.healthResult

/-- `healthcheck` (loader.py lines 217-225): for every registered plugin,
store the hook's payload under the plugin's name; a raise is caught and
replaced by `{"status": "error", "message": str(e)}`. -/
def healthcheck (st : LoaderState) : List (String × List (String × String)) :=
  st.plugins.foldl (fun results p =>
    match healthHook p with
    | Except.ok v => results ++ [(p.name, v)]
    | Except.error msg =>
        results ++ [(p.name, [("status", "error"), ("message", msg)])]) []

/-- The entry `healthcheck` produces for one plugin: the hook's payload, or
the synthesized error payload when the hook raises. -/
def healthEntry (p : Plugin) : String × List (String × String) :=
  match healthHook p with
  | Except.ok v => (p.name, v)
  | Except.error msg => (p.name, [("status", "error"), ("message", msg)])

/-- `unload_plugin(name)` (loader.py lines 227-239): look up by name; if
absent return `False`; otherwise invoke `on_unload()` — if it raises, the
exception is caught and `False` is returned with the registry untouched
(`plugin._enabled = False` and the deletion are not reached) — else the
instance is disabled, its entry deleted, and `True` returned. -/
def unloadPlugin (st : LoaderState) (n : String) : LoaderState × Bool × List HookEvent :=
  match findPlugin st.plugins n with
  | none => (st, false, [])
  | some p =>
    if p.onUnloadRaises then (st, false, [HookEvent.onUnload n])
    else ({ st with plugins := st.plugins.filter (fun q => !(q.name == n)) },
          true, [HookEvent.onUnload n])

/-- `x` occurs at a strictly earlier position than `y` in `l`. -/
def appearsBefore {α : Type} (l : List α) (x y : α) : Prop :=
  ∃ i j : Fin l.length, (i : Nat) < (j : Nat) ∧ l.get i = x ∧ l.get j = y

instance {α : Type} [DecidableEq α] (l : List α) (x y : α) :
    Decidable (appearsBefore l x y) := by
  unfold appearsBefore
  infer_instance

/-- Every plugin of `l` lists, among its dependencies that are registered in
`ps`, only names that occur strictly earlier in `l`. -/
def depsRespected (ps : List Plugin) (l : List Plugin) : Prop :=
  ∀ i : Nat, ∀ hi : i < l.length, ∀ d : String,
    d ∈ (l.get ⟨i, hi⟩).dependencies → d ∈ pluginNames ps →
    ∃ j : Nat, ∃ hj : j < l.length, j < i ∧ (l.get ⟨j, hj⟩).name = d

/-- Acyclicity of the dependency relation restricted to the registry,
expressed by a rank function: a registered dependency has strictly smaller
rank than its dependent. -/
def RankHyp (ps : List Plugin) (rk : String → Nat) : Prop :=
  ∀ p ∈ ps, ∀ d ∈ p.dependencies, d ∈ pluginNames ps → rk d < rk p.name

/-- Number of registered names not yet in the visited-set: the decreasing
measure of the DFS. -/
def unvisited (ps : List Plugin) (v : List String) : Nat :=
  ((pluginNames ps).toFinset \ v.toFinset).card

/-- Relation between DFS states before and after any sequence of `visit`
steps: the visited-set only grows, the result list is only appended to, the
appended plugins come from the registry, and a name that is visited but not
yet emitted ("gray", i.e. on the Python call stack) can never be emitted by
further steps. -/
structure VStep (ps : List Plugin) (a b : VisitState) : Prop where
  vis_sub : ∀ k, k ∈ a.visited → k ∈ b.visited
  res_ext : ∃ r, b.result = a.result ++ r
  res_src : ∀ p, p ∈ b.result → p ∈ a.result ∨ p ∈ ps
  gray_keep : ∀ k, k ∈ a.visited → ¬ k ∈ pluginNames a.result →
    ¬ k ∈ pluginNames b.result

/-! ### Concrete sample data used by witnesses and counterexamples -/

/-- A plugin with the given name, dependency list and hook behaviour, all
other hooks well behaved. -/
def mkPlugin (n : String) (deps : List String) : Plugin :=
  { name := n
    version := "1.0"
    dependencies := deps
    enabled := true
    app := none
    initAppRaises := false
    onUnloadRaises := false
    healthRaises := false
    healthMsg := ""
    healthResult := [("status", "ok"), ("plugin", n), ("version", "1.0")] }

/-- A well-behaved candidate with the given name and dependencies. -/
def mkCandidate (n : String) (deps : List String) : Candidate :=
  { constructionFails := false
    name := n
    version := "1.0"
    dependencies := deps
    onLoadRaises := false
    initAppRaises := false
    onUnloadRaises := false
    healthRaises := false
    healthMsg := ""
    healthResult := [("status", "ok"), ("plugin", n), ("version", "1.0")] }

/-- Plugin `"A"` depending on `"B"`: one half of a dependency cycle. -/
def cplA : Plugin := mkPlugin "A" ["B"]

/-- Plugin `"B"` depending on `"A"` and on the absent name `"ghost"`. -/
def cplB : Plugin := mkPlugin "B" ["A", "ghost"]

/-- A registry whose dependency lists form a cycle and also name an absent
plugin. -/
def cycReg : List Plugin := [cplA, cplB]

/-- Plugin `"A"` with no dependencies (acyclic sample). -/
def aclA : Plugin := mkPlugin "A" []

/-- Plugin `"B"` depending on `"A"` (acyclic sample). -/
def aclB : Plugin := mkPlugin "B" ["A"]

/-- Plugin `"C"` depending on `"B"` (acyclic sample). -/
def aclC : Plugin := mkPlugin "C" ["B"]

/-- The spec scenario: A, B, C discovered in the order C, A, B. -/
def aclReg : List Plugin := [aclC, aclA, aclB]

/-! ### Basic lemmas about registry lookup -/

theorem mem_pluginNames_of_mem {p : Plugin} {ps : List Plugin} (h : p ∈ ps) :
    p.name ∈ pluginNames ps :=
  List.mem_map_of_mem Plugin.name h

theorem findPlugin_isSome_iff (ps : List Plugin) (n : String) :
    (findPlugin ps n).isSome = true ↔ n ∈ pluginNames ps := by
  rw [findPlugin, List.find?_isSome, pluginNames]
  constructor
  · rintro ⟨p, hp, he⟩
    have hpn : p.name = n := by simpa using he
    exact hpn ▸ List.mem_map_of_mem _ hp
  · intro h
    rcases List.mem_map.mp h with ⟨p, hp, he⟩
    exact ⟨p, hp, by simp [he]⟩

theorem findPlugin_eq_some (ps : List Plugin) (n : String) (p : Plugin)
    (h : findPlugin ps n = some p) : p ∈ ps ∧ p.name = n := by
  refine ⟨List.mem_of_find?_eq_some h, ?_⟩
  have hb := List.find?_some h
  simpa using hb

theorem findPlugin_eq_none_of_not_mem (ps : List Plugin) (n : String)
    (h : ¬ n ∈ pluginNames ps) : findPlugin ps n = none := by
  cases hf : findPlugin ps n with
  | none => rfl
  | some p =>
    rcases findPlugin_eq_some ps n p hf with ⟨hp, he⟩
    exact absurd (he ▸ mem_pluginNames_of_mem hp) h

theorem plugin_name_inj {ps : List Plugin} (hnd : (pluginNames ps).Nodup)
    {p q : Plugin} (hp : p ∈ ps) (hq : q ∈ ps) (h : p.name = q.name) : p = q :=
  List.inj_on_of_nodup_map hnd hp hq h

theorem findPlugin_of_mem_nodup :
    ∀ (ps : List Plugin), (pluginNames ps).Nodup →
    ∀ {p : Plugin}, p ∈ ps → findPlugin ps p.name = some p := by
  intro ps
  induction ps with
  | nil => intro _ p hp; cases hp
  | cons q rest ih =>
    intro hnd p hp
    rw [show pluginNames (q :: rest) = q.name :: pluginNames rest from rfl,
      List.nodup_cons] at hnd
    rcases List.mem_cons.mp hp with rfl | hmem
    · simp [findPlugin]
    · have hq : ¬ (q.name = p.name) := by
        intro he
        exact hnd.1 (he ▸ mem_pluginNames_of_mem hmem)
      simpa [findPlugin, List.find?_cons, hq] using ih hnd.2 hmem

/-! ### C2, C5, C9: registration behaviour -/

/-- C2: registering a candidate whose instance name is already a key of the
registry leaves the loader state completely unchanged and invokes no hook at
all — in particular the duplicate's `on_load` is not invoked, and the
originally registered instance stays mapped to the name.  The `source` label
plays no role in `_register_plugin_class`, so this holds regardless of
origin. -/
theorem register_duplicate_name_noop (st : LoaderState) (c : Candidate)
    (hdup : c.name ∈ pluginNames st.plugins) :
    registerPluginClass st c = (st, []) := by
  unfold registerPluginClass
  by_cases hcf : c.constructionFails
  · simp [hcf]
  · have hs : (findPlugin st.plugins (construct c).name).isSome = true := by
      rw [findPlugin_isSome_iff]
      exact hdup
    by_cases hd : (construct c).name ∈ st.disabled
    · simp [hcf, hd]
    · simp [hcf, hd, hs]

/-- Witness for `register_duplicate_name_noop` at a concrete loader state. -/
theorem register_duplicate_name_noop_witness :
    registerPluginClass ⟨none, [mkPlugin "dup" []], [], false⟩ (mkCandidate "dup" []) =
      (⟨none, [mkPlugin "dup" []], [], false⟩, []) :=
  register_duplicate_name_noop _ _ (by simp [pluginNames, mkPlugin, mkCandidate])

/-- C5 counterexample: `_register_plugin_class` has no empty-name check.
Registering a well-behaved candidate named `""` into an empty loader leaves
the registry with an entry keyed by the empty name, contradicting the claim
that such a candidate is rejected. -/
theorem register_empty_name_cex :
    "" ∈ pluginNames
      ((registerPluginClass ⟨none, [], [], false⟩ (mkCandidate "" [])).1.plugins) := by
  simp [registerPluginClass, mkCandidate, construct, findPlugin, pluginNames]

/-- C5 amended: registration does not special-case the empty string; a
candidate whose name is `""`, when not disabled, not already present, and
whose construction and `on_load` succeed, is inserted into the registry
under the empty-string key.  Only disabled and reused names are skipped. -/
theorem register_empty_name_not_rejected (st : LoaderState) (c : Candidate)
    (hname : c.name = "")
    (hcf : c.constructionFails = false)
    (hdis : ¬ ("" : String) ∈ st.disabled)
    (habs : ¬ ("" : String) ∈ pluginNames st.plugins)
    (hol : c.onLoadRaises = false) :
    (registerPluginClass st c).1.plugins = st.plugins ++ [construct c] ∧
    ("" : String) ∈ pluginNames (registerPluginClass st c).1.plugins := by
  have hcn : (construct c).name = "" := hname
  have hfind : findPlugin st.plugins "" = none :=
    findPlugin_eq_none_of_not_mem _ _ habs
  have h1 : (registerPluginClass st c).1.plugins = st.plugins ++ [construct c] := by
    unfold registerPluginClass
    simp [hcf, hcn, hdis, hfind, hol]
  refine ⟨h1, ?_⟩
  rw [h1, pluginNames, List.map_append]
  simp [hcn]

/-- Witness for `register_empty_name_not_rejected` at a concrete input. -/
theorem register_empty_name_not_rejected_witness :
    (registerPluginClass ⟨none, [], [], false⟩ (mkCandidate "" [])).1.plugins
      = [construct (mkCandidate "" [])] :=
  (register_empty_name_not_rejected ⟨none, [], [], false⟩ (mkCandidate "" [])
    rfl rfl (by simp) (by simp [pluginNames]) rfl).1

/-- C9: when construction succeeds but `on_load()` raises, the exception is
caught before the dict insertion, so the registry is left unchanged (the
hook was invoked, as the event trace shows); a later candidate with the same
name therefore still registers successfully. -/
theorem register_onload_failure_atomic (st : LoaderState) (c c2 : Candidate)
    (hcf : c.constructionFails = false)
    (hdis : ¬ c.name ∈ st.disabled)
    (habs : ¬ c.name ∈ pluginNames st.plugins)
    (hraise : c.onLoadRaises = true)
    (hname2 : c2.name = c.name)
    (hcf2 : c2.constructionFails = false)
    (hol2 : c2.onLoadRaises = false) :
    registerPluginClass st c = (st, [HookEvent.onLoad c.name]) ∧
    (registerPluginClass (registerPluginClass st c).1 c2).1.plugins
      = st.plugins ++ [construct c2] := by
  have hfind : findPlugin st.plugins c.name = none :=
    findPlugin_eq_none_of_not_mem _ _ habs
  have h1 : registerPluginClass st c = (st, [HookEvent.onLoad c.name]) := by
    unfold registerPluginClass
    have hcn : (construct c).name = c.name := rfl
    simp [hcf, hcn, hdis, hfind, hraise]
  refine ⟨h1, ?_⟩
  rw [h1]
  unfold registerPluginClass
  have hcn2 : (construct c2).name = c.name := hname2
  simp [hcf2, hcn2, hdis, hfind, hol2]

/-- Witness for `register_onload_failure_atomic` at a concrete input: a
candidate named `"x"` whose `on_load` raises, followed by a well-behaved
candidate with the same name. -/
theorem register_onload_failure_atomic_witness :
    (registerPluginClass
      (registerPluginClass ⟨none, [], [], false⟩
        { mkCandidate "x" [] with onLoadRaises := true }).1
      (mkCandidate "x" [])).1.plugins = [construct (mkCandidate "x" [])] :=
  (register_onload_failure_atomic ⟨none, [], [], false⟩
    { mkCandidate "x" [] with onLoadRaises := true } (mkCandidate "x" [])
    rfl (by simp) (by simp [pluginNames]) rfl rfl rfl rfl).2

/-! ### C7: healthcheck aggregation -/

theorem healthEntry_fst (p : Plugin) : (healthEntry p).1 = p.name := by
  unfold healthEntry
  cases healthHook p <;> rfl

theorem healthcheck_eq (st : LoaderState) :
    healthcheck st = st.plugins.map healthEntry := by
  unfold healthcheck
  suffices h : ∀ (l : List Plugin) (acc : List (String × List (String × String))),
      l.foldl (fun results p =>
        match healthHook p with
        | Except.ok v => results ++ [(p.name, v)]
        | Except.error msg =>
            results ++ [(p.name, [("status", "error"), ("message", msg)])]) acc
      = acc ++ l.map healthEntry by
    simpa using h st.plugins []
  intro l
  induction l with
  | nil => intro acc; simp
  | cons p rest ih =>
    intro acc
    rw [List.foldl_cons, List.map_cons, ih]
    cases hh : healthHook p <;> simp [healthEntry, hh]

/-- C7: `healthcheck()` is a total function of the loader state (the loader
catches every per-plugin exception, so it never raises); its key list is
exactly the names of all registered plugins in registry order — the
`enabled` flag is not consulted — and a plugin whose health hook raises is
mapped to the `{"status": "error", "message": ...}` payload carrying that
exception's message instead of its hook's result. -/
theorem healthcheck_total_spec (st : LoaderState) :
    (healthcheck st).map Prod.fst = pluginNames st.plugins ∧
    (∀ p ∈ st.plugins, p.healthRaises = true →
      (p.name, [("status", "error"), ("message", p.healthMsg)]) ∈ healthcheck st) ∧
    (∀ p ∈ st.plugins, p.healthRaises = false →
      (p.name, p.healthResult) ∈ healthcheck st) := by
  refine ⟨?_, ?_, ?_⟩
  · rw [healthcheck_eq, List.map_map, pluginNames]
    exact List.map_congr_left (fun p _ => healthEntry_fst p)
  · intro p hp hr
    rw [healthcheck_eq]
    have he : healthEntry p = (p.name, [("status", "error"), ("message", p.healthMsg)]) := by
      simp [healthEntry, healthHook, hr]
    exact he ▸ List.mem_map_of_mem healthEntry hp
  · intro p hp hr
    rw [healthcheck_eq]
    have he : healthEntry p = (p.name, p.healthResult) := by
      simp [healthEntry, healthHook, hr]
    exact he ▸ List.mem_map_of_mem healthEntry hp

/-- Witness for `healthcheck_total_spec`: a concrete registry with one
disabled plugin whose health hook raises `"boom"`. -/
theorem healthcheck_total_spec_witness :
    ("h", [("status", "error"), ("message", "boom")]) ∈
      healthcheck ⟨none,
        [{ mkPlugin "h" [] with enabled := false, healthRaises := true, healthMsg := "boom" }],
        [], false⟩ :=
  (healthcheck_total_spec _).2.1
    { mkPlugin "h" [] with enabled := false, healthRaises := true, healthMsg := "boom" }
    (by simp) rfl

/-! ### C8: unload -/

theorem unload_false_of_find_none (st : LoaderState) (n : String)
    (h : findPlugin st.plugins n = none) : (unloadPlugin st n).2.1 = false := by
  unfold unloadPlugin
  rw [h]

/-- C8: `unload_plugin(name)` succeeds (returns `True`) exactly when the name
is registered and its `on_unload` hook does not raise.  On success the entry
is deleted — the instance also has its `enabled` flag cleared just before
the deletion, which leaves no trace in the registry — so an immediate second
unload of the same name returns `False`; on any failure (absent name, or
`on_unload` raising) the loader state is exactly as before the call. -/
theorem unload_spec (st : LoaderState) (n : String)
    (hnd : (pluginNames st.plugins).Nodup) :
    ((unloadPlugin st n).2.1 = true ↔
       ∃ p ∈ st.plugins, p.name = n ∧ p.onUnloadRaises = false) ∧
    ((unloadPlugin st n).2.1 = true →
       (unloadPlugin st n).1.plugins = st.plugins.filter (fun q => !(q.name == n)) ∧
       (unloadPlugin (unloadPlugin st n).1 n).2.1 = false) ∧
    ((unloadPlugin st n).2.1 = false → (unloadPlugin st n).1 = st) := by
  cases hf : findPlugin st.plugins n with
  | none =>
    have hres : unloadPlugin st n = (st, false, []) := by
      unfold unloadPlugin
      rw [hf]
    refine ⟨?_, ?_, ?_⟩
    · rw [hres]
      refine iff_of_false (by simp) ?_
      rintro ⟨p, hp, hpn, -⟩
      have := findPlugin_of_mem_nodup st.plugins hnd hp
      rw [hpn, hf] at this
      cases this
    · rw [hres]; intro h; cases h
    · rw [hres]; intro _; rfl
  | some p =>
    rcases findPlugin_eq_some _ _ _ hf with ⟨hp, hpn⟩
    by_cases hr : p.onUnloadRaises
    · have hres : unloadPlugin st n = (st, false, [HookEvent.onUnload n]) := by
        unfold unloadPlugin
        rw [hf]
        simp [hr]
      refine ⟨?_, ?_, ?_⟩
      · rw [hres]
        refine iff_of_false (by simp) ?_
        rintro ⟨q, hq, hqn, hqr⟩
        have : q = p := plugin_name_inj hnd hq hp (hqn.trans hpn.symm)
        rw [this, hr] at hqr
        cases hqr
      · rw [hres]; intro h; cases h
      · rw [hres]; intro _; rfl
    · have hres : unloadPlugin st n =
          ({ st with plugins := st.plugins.filter (fun q => !(q.name == n)) },
           true, [HookEvent.onUnload n]) := by
        unfold unloadPlugin
        rw [hf]
        simp [hr]
      refine ⟨?_, ?_, ?_⟩
      · rw [hres]
        exact iff_of_true rfl ⟨p, hp, hpn, by simpa using hr⟩
      · intro _
        constructor
        · rw [hres]
        · have hnone : findPlugin ((unloadPlugin st n).1.plugins) n = none := by
            rw [hres]
            apply List.find?_eq_none.mpr
            intro q hq
            have := (List.mem_filter.mp hq).2
            simpa using this
          exact unload_false_of_find_none _ _ hnone
      · rw [hres]; intro h; cases h

/-- Witness for `unload_spec`: a concrete one-plugin registry; unloading the
registered name succeeds. -/
theorem unload_spec_witness :
    (unloadPlugin ⟨none, [mkPlugin "u" []], [], false⟩ "u").2.1 = true :=
  (unload_spec ⟨none, [mkPlugin "u" []], [], false⟩ "u"
    (by simp [pluginNames])).1.mpr ⟨mkPlugin "u" [], by simp, rfl, rfl⟩

/-! ### Structural lemmas about registration and initialization -/

theorem register_cases (st : LoaderState) (c : Candidate) :
    (registerPluginClass st c).1 = st ∨
    ((registerPluginClass st c).1 = { st with plugins := st.plugins ++ [construct c] } ∧
     c.constructionFails = false ∧
     ¬ (construct c).name ∈ st.disabled ∧
     findPlugin st.plugins (construct c).name = none ∧
     c.onLoadRaises = false) := by
  unfold registerPluginClass
  by_cases h1 : c.constructionFails
  · left; simp [h1]
  · by_cases h2 : (construct c).name ∈ st.disabled
    · left; simp [h1, h2]
    · cases h3 : findPlugin st.plugins (construct c).name with
      | some p => left; simp [h1, h2, h3]
      | none =>
        by_cases h4 : c.onLoadRaises
        · left; simp [h1, h2, h3, h4]
        · right
          refine ⟨by simp [h1, h2, h3, h4], by simpa using h1, h2, rfl, by simpa using h4⟩

theorem register_meta (st : LoaderState) (c : Candidate) :
    (registerPluginClass st c).1.app = st.app ∧
    (registerPluginClass st c).1.disabled = st.disabled ∧
    (registerPluginClass st c).1.pluginsDirSet = st.pluginsDirSet := by
  rcases register_cases st c with h | ⟨h, -⟩ <;> rw [h] <;> exact ⟨rfl, rfl, rfl⟩

theorem register_events (st : LoaderState) (c : Candidate) :
    ∀ e ∈ (registerPluginClass st c).2, ∃ n, e = HookEvent.onLoad n := by
  unfold registerPluginClass
  by_cases h1 : c.constructionFails
  · simp [h1]
  · by_cases h2 : (construct c).name ∈ st.disabled
    · simp [h1, h2]
    · by_cases h3 : (findPlugin st.plugins (construct c).name).isSome = true
      · simp [h1, h2, h3]
      · by_cases h4 : c.onLoadRaises
        · simp [h1, h2, h3, h4]
        · simp [h1, h2, h3, h4]

theorem register_plugins_prop (st : LoaderState) (c : Candidate)
    (Q : Plugin → Prop) (hQ : ∀ p ∈ st.plugins, Q p) (hQc : Q (construct c)) :
    ∀ p ∈ (registerPluginClass st c).1.plugins, Q p := by
  rcases register_cases st c with h | ⟨h, -⟩ <;> rw [h]
  · exact hQ
  · intro p hp
    rcases List.mem_append.mp hp with h1 | h2
    · exact hQ p h1
    · rw [List.mem_singleton.mp h2]; exact hQc

theorem register_disabled_stays_absent (st : LoaderState) (c : Candidate) (n : String)
    (hdis : n ∈ st.disabled) (habs : ¬ n ∈ pluginNames st.plugins) :
    ¬ n ∈ pluginNames (registerPluginClass st c).1.plugins := by
  rcases register_cases st c with h | ⟨h, -, hd, -, -⟩
  · rw [h]; exact habs
  · rw [h]
    intro hmem
    rw [show ({ st with plugins := st.plugins ++ [construct c] } : LoaderState).plugins
        = st.plugins ++ [construct c] from rfl, pluginNames, List.map_append] at hmem
    rcases List.mem_append.mp hmem with h1 | h2
    · exact habs h1
    · have he : (construct c).name = n := (by simpa using h2 : n = (construct c).name).symm
      exact hd (by rw [he]; exact hdis)

theorem registerAll_state (st : LoaderState) (cs : List Candidate) :
    (registerAll st cs).1 = cs.foldl (fun s c => (registerPluginClass s c).1) st := by
  unfold registerAll
  suffices h : ∀ (cs : List Candidate) (st : LoaderState) (evs : List HookEvent),
      (cs.foldl (fun acc c =>
        let r := registerPluginClass acc.1 c
        (r.1, acc.2 ++ r.2)) (st, evs)).1
      = cs.foldl (fun s c => (registerPluginClass s c).1) st by
    exact h cs st []
  intro cs
  induction cs with
  | nil => intro st evs; rfl
  | cons c rest ih =>
    intro st evs
    simp only [List.foldl_cons]
    exact ih _ _

theorem registerAll_events (st : LoaderState) (cs : List Candidate) :
    ∀ e ∈ (registerAll st cs).2, ∃ n, e = HookEvent.onLoad n := by
  unfold registerAll
  suffices h : ∀ (cs : List Candidate) (st : LoaderState) (evs : List HookEvent),
      (∀ e ∈ evs, ∃ n, e = HookEvent.onLoad n) →
      ∀ e ∈ (cs.foldl (fun acc c =>
        let r := registerPluginClass acc.1 c
        (r.1, acc.2 ++ r.2)) (st, evs)).2, ∃ n, e = HookEvent.onLoad n by
    exact h cs st [] (by intro e he; cases he)
  intro cs
  induction cs with
  | nil => intro st evs hevs; exact hevs
  | cons c rest ih =>
    intro st evs hevs
    simp only [List.foldl_cons]
    apply ih
    intro e he
    rcases List.mem_append.mp he with h | h
    · exact hevs e h
    · exact register_events st c e h

theorem registerAll_meta (cs : List Candidate) : ∀ (st : LoaderState),
    (registerAll st cs).1.app = st.app ∧
    (registerAll st cs).1.disabled = st.disabled ∧
    (registerAll st cs).1.pluginsDirSet = st.pluginsDirSet := by
  induction cs with
  | nil => intro st; rw [registerAll_state]; exact ⟨rfl, rfl, rfl⟩
  | cons c rest ih =>
    intro st
    have hexp : (registerAll st (c :: rest)).1
        = (registerAll (registerPluginClass st c).1 rest).1 := by
      rw [registerAll_state, registerAll_state, List.foldl_cons]
    rcases register_meta st c with ⟨h1, h2, h3⟩
    rcases ih (registerPluginClass st c).1 with ⟨i1, i2, i3⟩
    rw [hexp]
    exact ⟨i1.trans h1, i2.trans h2, i3.trans h3⟩

theorem registerAll_disabled_stays_absent (cs : List Candidate) :
    ∀ (st : LoaderState) (n : String),
      n ∈ st.disabled → ¬ n ∈ pluginNames st.plugins →
      ¬ n ∈ pluginNames (registerAll st cs).1.plugins := by
  induction cs with
  | nil => intro st n _ habs; rw [registerAll_state]; exact habs
  | cons c rest ih =>
    intro st n hdis habs
    rw [registerAll_state]
    simp only [List.foldl_cons]
    rw [← registerAll_state]
    apply ih
    · rw [(register_meta st c).2.1]; exact hdis
    · exact register_disabled_stays_absent st c n hdis habs

theorem registerAll_plugins_prop (Q : Plugin → Prop) (cs : List Candidate) :
    ∀ (st : LoaderState), (∀ p ∈ st.plugins, Q p) → (∀ c ∈ cs, Q (construct c)) →
    ∀ p ∈ (registerAll st cs).1.plugins, Q p := by
  induction cs with
  | nil => intro st hQ _; rw [registerAll_state]; exact hQ
  | cons c rest ih =>
    intro st hQ hQc
    rw [registerAll_state]
    simp only [List.foldl_cons]
    rw [← registerAll_state]
    apply ih
    · exact register_plugins_prop st c Q hQ (hQc c (by simp))
    · intro c2 hc2; exact hQc c2 (by simp [hc2])

theorem initAppUpdate_name (a : Nat) (q : Plugin) :
    (initAppUpdate a q).name = q.name := rfl

theorem initAppUpdate_idem (a : Nat) (q : Plugin) :
    initAppUpdate a (initAppUpdate a q) = initAppUpdate a q := by
  unfold initAppUpdate
  by_cases h : q.initAppRaises <;> simp [h]

theorem foldl_initOne_eq (a : Nat) :
    ∀ (ns : List String) (ps : List Plugin),
      ns.foldl (initOne a) ps
      = ps.map (fun q => if q.name ∈ ns then initAppUpdate a q else q) := by
  intro ns
  induction ns with
  | nil =>
    intro ps
    simp
  | cons n rest ih =>
    intro ps
    rw [List.foldl_cons, ih]
    unfold initOne
    rw [List.map_map]
    apply List.map_congr_left
    intro q _
    by_cases h : q.name = n
    · simp only [Function.comp_apply, h, beq_self_eq_true, if_true]
      rw [initAppUpdate_name]
      by_cases h2 : n ∈ rest <;> simp [h, h2, initAppUpdate_idem]
    · have hb : ¬ ((q.name == n) = true) := by simpa using h
      simp only [Function.comp_apply, hb, if_false, List.mem_cons]
      by_cases h2 : q.name ∈ rest <;> simp [h, h2, hb]

theorem initAllPlugins_eq (st : LoaderState) (a : Nat) (happ : st.app = some a) :
    (initAllPlugins st).1.plugins
      = st.plugins.map (fun q =>
          if q.name ∈ pluginNames (sortByDependencies st.plugins)
          then initAppUpdate a q else q) ∧
    (initAllPlugins st).2
      = (sortByDependencies st.plugins).map (fun p => HookEvent.initApp p.name) ∧
    (initAllPlugins st).1.app = st.app ∧
    (initAllPlugins st).1.disabled = st.disabled ∧
    (initAllPlugins st).1.pluginsDirSet = st.pluginsDirSet := by
  unfold initAllPlugins
  rw [happ]
  refine ⟨?_, rfl, rfl, rfl, rfl⟩
  dsimp only
  rw [← List.foldl_map, foldl_initOne_eq]
  rfl

theorem initAllPlugins_no_app (st : LoaderState) (h : st.app = none) :
    initAllPlugins st = (st, []) := by
  unfold initAllPlugins
  rw [h]

theorem initAllPlugins_names (st : LoaderState) :
    pluginNames (initAllPlugins st).1.plugins = pluginNames st.plugins := by
  cases happ : st.app with
  | none => rw [initAllPlugins_no_app st happ]
  | some a =>
    rw [(initAllPlugins_eq st a happ).1, pluginNames, pluginNames, List.map_map]
    apply List.map_congr_left
    intro q _
    simp only [Function.comp_apply]
    by_cases h : q.name ∈ List.map Plugin.name (sortByDependencies st.plugins)
    · rw [if_pos h, initAppUpdate_name]
    · rw [if_neg h]

theorem loadAll_state (st : LoaderState) (ep dirc : List Candidate) :
    (loadAll st ep dirc).1 =
      (initAllPlugins (if (registerAll st ep).1.pluginsDirSet
        then (registerAll (registerAll st ep).1 dirc).1
        else (registerAll st ep).1)).1 := by
  unfold loadAll
  by_cases h : (registerAll st ep).1.pluginsDirSet <;> simp [h]

theorem loadAll_events (st : LoaderState) (ep dirc : List Candidate) :
    (loadAll st ep dirc).2 =
      (registerAll st ep).2 ++
      (if (registerAll st ep).1.pluginsDirSet
        then (registerAll (registerAll st ep).1 dirc).2 else []) ++
      (initAllPlugins (if (registerAll st ep).1.pluginsDirSet
        then (registerAll (registerAll st ep).1 dirc).1
        else (registerAll st ep).1)).2 := by
  unfold loadAll
  by_cases h : (registerAll st ep).1.pluginsDirSet <;> simp [h]

/-! ### C4: disable-list -/

/-- C4: a name on the disable-list at registration time (and not previously
registered) is never a key of the registry after `load_all()`, no matter
which discovery sources produce candidates bearing it; consequently
`get_plugin` on that name returns `None` and `get_all_plugins` excludes
it. -/
theorem disabled_name_never_registered (st : LoaderState)
    (epCands dirCands : List Candidate) (n : String)
    (hdis : n ∈ st.disabled) (habs : ¬ n ∈ pluginNames st.plugins) :
    ¬ n ∈ pluginNames (loadAll st epCands dirCands).1.plugins ∧
    getPlugin (loadAll st epCands dirCands).1 n = none ∧
    (∀ p ∈ getAllPlugins (loadAll st epCands dirCands).1, ¬ p.name = n) := by
  have h1 : ¬ n ∈ pluginNames (registerAll st epCands).1.plugins :=
    registerAll_disabled_stays_absent epCands st n hdis habs
  have hd1 : n ∈ (registerAll st epCands).1.disabled := by
    rw [(registerAll_meta epCands st).2.1]; exact hdis
  have h2 : ¬ n ∈ pluginNames
      (if (registerAll st epCands).1.pluginsDirSet
        then (registerAll (registerAll st epCands).1 dirCands).1
        else (registerAll st epCands).1).plugins := by
    by_cases hdir : (registerAll st epCands).1.pluginsDirSet
    · rw [if_pos hdir]
      exact registerAll_disabled_stays_absent dirCands _ n hd1 h1
    · rw [if_neg hdir]
      exact h1
  have key : ¬ n ∈ pluginNames (loadAll st epCands dirCands).1.plugins := by
    rw [loadAll_state, initAllPlugins_names]
    exact h2
  refine ⟨key, findPlugin_eq_none_of_not_mem _ _ key, ?_⟩
  intro p hp hpn
  have hmem : p ∈ (loadAll st epCands dirCands).1.plugins :=
    (List.mem_filter.mp hp).1
  exact key (hpn ▸ mem_pluginNames_of_mem hmem)

/-- Witness for `disabled_name_never_registered`: a concrete loader whose
disable-list carries `"X"` while both discovery sources yield a candidate
named `"X"`. -/
theorem disabled_name_never_registered_witness :
    getPlugin (loadAll ⟨some 0, [], ["X"], true⟩
      [mkCandidate "X" []] [mkCandidate "X" []]).1 "X" = none :=
  (disabled_name_never_registered ⟨some 0, [], ["X"], true⟩
    [mkCandidate "X" []] [mkCandidate "X" []] "X" (by simp) (by simp [pluginNames])).2.1

/-! ### C10: load_all without a bound application -/

/-- C10: when no Flask app is bound (`self._app is None`), `load_all` still
runs both discovery sources into the registry but `_init_all_plugins`
returns immediately: no `init_app` is invoked, and — starting from a loader
whose plugins are all enabled with no app back-reference, e.g. a fresh one —
every registered plugin still has `enabled = True` and `_app = None`
afterwards. -/
theorem no_app_skips_init (st : LoaderState) (ep dirc : List Candidate)
    (happ : st.app = none)
    (hclean : ∀ p ∈ st.plugins, p.enabled = true ∧ p.app = none) :
    (∀ n : String, ¬ HookEvent.initApp n ∈ (loadAll st ep dirc).2) ∧
    (loadAll st ep dirc).1 =
      (if (registerAll st ep).1.pluginsDirSet
        then (registerAll (registerAll st ep).1 dirc).1
        else (registerAll st ep).1) ∧
    (∀ p ∈ (loadAll st ep dirc).1.plugins, p.enabled = true ∧ p.app = none) := by
  have happ1 : (registerAll st ep).1.app = none := by
    rw [(registerAll_meta ep st).1]; exact happ
  have happ2 : (if (registerAll st ep).1.pluginsDirSet
      then (registerAll (registerAll st ep).1 dirc).1
      else (registerAll st ep).1).app = none := by
    by_cases hdir : (registerAll st ep).1.pluginsDirSet
    · rw [if_pos hdir, (registerAll_meta dirc _).1]; exact happ1
    · rw [if_neg hdir]; exact happ1
  have hstate : (loadAll st ep dirc).1 =
      (if (registerAll st ep).1.pluginsDirSet
        then (registerAll (registerAll st ep).1 dirc).1
        else (registerAll st ep).1) := by
    rw [loadAll_state, initAllPlugins_no_app _ happ2]
  refine ⟨?_, hstate, ?_⟩
  · intro n hn
    rw [loadAll_events, initAllPlugins_no_app _ happ2] at hn
    rcases List.mem_append.mp hn with hn | hn
    · rcases List.mem_append.mp hn with hn | hn
      · rcases registerAll_events st ep _ hn with ⟨m, hm⟩
        cases hm
      · by_cases hdir : (registerAll st ep).1.pluginsDirSet
        · rw [if_pos hdir] at hn
          rcases registerAll_events _ dirc _ hn with ⟨m, hm⟩
          cases hm
        · rw [if_neg hdir] at hn
          cases hn
    · simp at hn
  · rw [hstate]
    by_cases hdir : (registerAll st ep).1.pluginsDirSet
    · rw [if_pos hdir]
      apply registerAll_plugins_prop (fun p => p.enabled = true ∧ p.app = none) dirc
      · apply registerAll_plugins_prop (fun p => p.enabled = true ∧ p.app = none) ep
        · exact hclean
        · intro c _; exact ⟨rfl, rfl⟩
      · intro c _; exact ⟨rfl, rfl⟩
    · rw [if_neg hdir]
      apply registerAll_plugins_prop (fun p => p.enabled = true ∧ p.app = none) ep
      · exact hclean
      · intro c _; exact ⟨rfl, rfl⟩

/-- Witness for `no_app_skips_init`: a fresh loader with no app bound and
one discovered candidate; `load_all` ends in the post-registration state,
untouched by initialization. -/
theorem no_app_skips_init_witness :
    (loadAll ⟨none, [], [], false⟩ [mkCandidate "w" []] []).1
      = (if (registerAll ⟨none, [], [], false⟩ [mkCandidate "w" []]).1.pluginsDirSet
          then (registerAll
            (registerAll ⟨none, [], [], false⟩ [mkCandidate "w" []]).1 []).1
          else (registerAll ⟨none, [], [], false⟩ [mkCandidate "w" []]).1) :=
  (no_app_skips_init ⟨none, [], [], false⟩ [mkCandidate "w" []] [] rfl
    (by intro p hp; cases hp)).2.1

/-! ### The DFS of `_sort_by_dependencies`: basic structure -/

theorem unvisited_mono (ps : List Plugin) {v w : List String}
    (h : ∀ x ∈ v, x ∈ w) : unvisited ps w ≤ unvisited ps v := by
  apply Finset.card_le_card
  apply Finset.sdiff_subset_sdiff (Finset.Subset.refl _)
  intro x hx
  rw [List.mem_toFinset] at hx ⊢
  exact h x hx

theorem unvisited_lt (ps : List Plugin) (n : String) (v : List String)
    (hn : n ∈ pluginNames ps) (hv : ¬ n ∈ v) :
    unvisited ps (n :: v) < unvisited ps v := by
  apply Finset.card_lt_card
  rw [Finset.ssubset_def]
  constructor
  · apply Finset.sdiff_subset_sdiff (Finset.Subset.refl _)
    intro x hx
    rw [List.mem_toFinset] at hx ⊢
    exact List.mem_cons_of_mem _ hx
  · intro hsub
    have hin : n ∈ (pluginNames ps).toFinset \ v.toFinset := by
      rw [Finset.mem_sdiff, List.mem_toFinset, List.mem_toFinset]
      exact ⟨hn, hv⟩
    have hcontra := hsub hin
    rw [Finset.mem_sdiff, List.mem_toFinset, List.mem_toFinset] at hcontra
    exact hcontra.2 (List.mem_cons_self _ _)

theorem unvisited_le_length (ps : List Plugin) (v : List String) :
    unvisited ps v ≤ ps.length := by
  calc unvisited ps v ≤ (pluginNames ps).toFinset.card := by
        apply Finset.card_le_card
        exact Finset.sdiff_subset
    _ ≤ (pluginNames ps).length := List.toFinset_card_le _
    _ = ps.length := by rw [pluginNames, List.length_map]

theorem vstep_refl (ps : List Plugin) (s : VisitState) : VStep ps s s :=
  ⟨fun _ h => h, ⟨[], by simp⟩, fun _ h => Or.inl h, fun _ _ h => h⟩

theorem vstep_trans {ps : List Plugin} {a b c : VisitState}
    (h1 : VStep ps a b) (h2 : VStep ps b c) : VStep ps a c := by
  refine ⟨fun k hk => h2.vis_sub k (h1.vis_sub k hk), ?_, ?_, ?_⟩
  · rcases h1.res_ext with ⟨r1, e1⟩
    rcases h2.res_ext with ⟨r2, e2⟩
    exact ⟨r1 ++ r2, by rw [e2, e1, List.append_assoc]⟩
  · intro p hp
    rcases h2.res_src p hp with h | h
    · exact h1.res_src p h
    · exact Or.inr h
  · intro k hk hnk
    exact h2.gray_keep k (h1.vis_sub k hk) (h1.gray_keep k hk hnk)

theorem visit_succ_mem (ps : List Plugin) (fuel : Nat) (n : String) (s : VisitState)
    (h : n ∈ s.visited) : visit ps (fuel+1) n s = s := by
  rw [visit, if_pos h]

theorem visit_succ_none (ps : List Plugin) (fuel : Nat) (n : String) (s : VisitState)
    (h : ¬ n ∈ s.visited) (hf : findPlugin ps n = none) :
    visit ps (fuel+1) n s = ⟨n :: s.visited, s.result⟩ := by
  rw [visit, if_neg h]
  simp only [hf]

theorem visit_succ_some (ps : List Plugin) (fuel : Nat) (n : String) (s : VisitState)
    (p : Plugin) (h : ¬ n ∈ s.visited) (hf : findPlugin ps n = some p) :
    visit ps (fuel+1) n s =
      ⟨(p.dependencies.foldl (fun acc d =>
          if (findPlugin ps d).isSome then visit ps fuel d acc else acc)
          ⟨n :: s.visited, s.result⟩).visited,
       (p.dependencies.foldl (fun acc d =>
          if (findPlugin ps d).isSome then visit ps fuel d acc else acc)
          ⟨n :: s.visited, s.result⟩).result ++ [p]⟩ := by
  rw [visit, if_neg h]
  simp only [hf]

theorem foldl_dep_vstep (ps : List Plugin) (fuel : Nat)
    (h : ∀ d s, VStep ps s (visit ps fuel d s)) :
    ∀ (deps : List String) (s : VisitState),
      VStep ps s (deps.foldl (fun acc d =>
        if (findPlugin ps d).isSome then visit ps fuel d acc else acc) s) := by
  intro deps
  induction deps with
  | nil => intro s; exact vstep_refl ps s
  | cons d rest ih =>
    intro s
    rw [List.foldl_cons]
    refine vstep_trans ?_ (ih _)
    by_cases hd : (findPlugin ps d).isSome = true
    · rw [if_pos hd]; exact h d s
    · rw [if_neg hd]; exact vstep_refl ps s

theorem visit_vstep (ps : List Plugin) :
    ∀ (fuel : Nat) (n : String) (s : VisitState), VStep ps s (visit ps fuel n s) := by
  intro fuel
  induction fuel with
  | zero => intro n s; exact vstep_refl ps s
  | succ fuel ih =>
    intro n s
    by_cases hv : n ∈ s.visited
    · rw [visit_succ_mem ps fuel n s hv]; exact vstep_refl ps s
    · cases hf : findPlugin ps n with
      | none =>
        rw [visit_succ_none ps fuel n s hv hf]
        exact ⟨fun k hk => List.mem_cons_of_mem _ hk, ⟨[], by simp⟩,
          fun _ h => Or.inl h, fun _ _ h => h⟩
      | some p =>
        rw [visit_succ_some ps fuel n s p hv hf]
        have hstep1 : VStep ps s ⟨n :: s.visited, s.result⟩ :=
          ⟨fun k hk => List.mem_cons_of_mem _ hk, ⟨[], by simp⟩,
            fun _ h => Or.inl h, fun _ _ h => h⟩
        have hfold := foldl_dep_vstep ps fuel ih p.dependencies ⟨n :: s.visited, s.result⟩
        have hs2 := vstep_trans hstep1 hfold
        set s2 := p.dependencies.foldl (fun acc d =>
          if (findPlugin ps d).isSome then visit ps fuel d acc else acc)
          ⟨n :: s.visited, s.result⟩ with hs2def
        refine ⟨?_, ?_, ?_, ?_⟩
        · intro k hk
          exact hs2.vis_sub k hk
        · rcases hs2.res_ext with ⟨r, hr⟩
          exact ⟨r ++ [p], by rw [hr, List.append_assoc]⟩
        · intro q hq
          rcases List.mem_append.mp hq with h1 | h2
          · exact hs2.res_src q h1
          · rw [List.mem_singleton.mp h2]
            exact Or.inr (List.mem_of_find?_eq_some hf)
        · intro k hk hnk
          have hk2 := hs2.gray_keep k hk hnk
          have hpn : p.name = n := (findPlugin_eq_some ps n p hf).2
          intro hmem
          rw [show pluginNames (s2.result ++ [p])
              = pluginNames s2.result ++ [p.name] from by
            rw [pluginNames, pluginNames, List.map_append]; rfl] at hmem
          rcases List.mem_append.mp hmem with h1 | h2
          · exact hk2 h1
          · rw [List.mem_singleton.mp h2, hpn] at hk
            exact hv (by exact hk)
          
theorem visit_self_visited (ps : List Plugin) (fuel : Nat) (n : String) (s : VisitState) :
    n ∈ (visit ps (fuel+1) n s).visited := by
  by_cases hv : n ∈ s.visited
  · rw [visit_succ_mem ps fuel n s hv]; exact hv
  · cases hf : findPlugin ps n with
    | none =>
      rw [visit_succ_none ps fuel n s hv hf]
      exact List.mem_cons_self _ _
    | some p =>
      rw [visit_succ_some ps fuel n s p hv hf]
      have hfold := foldl_dep_vstep ps fuel (visit_vstep ps fuel) p.dependencies
        ⟨n :: s.visited, s.result⟩
      exact hfold.vis_sub n (List.mem_cons_self _ _)

/-! ### Stability: the fuel budget is not binding (the Python recursion
terminates and the embedding computes its value) -/

theorem foldl_dep_congr (ps : List Plugin) (g : Nat)
    (h : ∀ d s, unvisited ps s.visited + 1 ≤ g → visit ps (g+1) d s = visit ps g d s) :
    ∀ (deps : List String) (s : VisitState), unvisited ps s.visited + 1 ≤ g →
      deps.foldl (fun acc d =>
        if (findPlugin ps d).isSome then visit ps (g+1) d acc else acc) s
      = deps.foldl (fun acc d =>
        if (findPlugin ps d).isSome then visit ps g d acc else acc) s := by
  intro deps
  induction deps with
  | nil => intro s _; rfl
  | cons d rest ih =>
    intro s hs
    rw [List.foldl_cons, List.foldl_cons]
    by_cases hd : (findPlugin ps d).isSome = true
    · rw [if_pos hd, if_pos hd, h d s hs]
      apply ih
      have hmono := (visit_vstep ps g d s).vis_sub
      exact le_trans (Nat.add_le_add_right (unvisited_mono ps hmono) 1) hs
    · rw [if_neg hd, if_neg hd]
      exact ih s hs

theorem visit_stable (ps : List Plugin) :
    ∀ (g : Nat) (n : String) (s : VisitState), unvisited ps s.visited + 1 ≤ g →
      visit ps (g+1) n s = visit ps g n s := by
  intro g
  induction g with
  | zero => intro n s h; omega
  | succ g ih =>
    intro n s hs
    by_cases hv : n ∈ s.visited
    · rw [visit_succ_mem ps (g+1) n s hv, visit_succ_mem ps g n s hv]
    · cases hf : findPlugin ps n with
      | none => rw [visit_succ_none ps (g+1) n s hv hf, visit_succ_none ps g n s hv hf]
      | some p =>
        rw [visit_succ_some ps (g+1) n s p hv hf, visit_succ_some ps g n s p hv hf]
        have hn : n ∈ pluginNames ps := by
          rw [← findPlugin_isSome_iff, hf]
          rfl
        have hlt := unvisited_lt ps n s.visited hn hv
        have hcond : unvisited ps (n :: s.visited) + 1 ≤ g := by omega
        rw [foldl_dep_congr ps g ih p.dependencies ⟨n :: s.visited, s.result⟩ hcond]

theorem foldl_top_congr (ps : List Plugin) (g : Nat) (hg : ps.length + 1 ≤ g) :
    ∀ (l : List Plugin) (s : VisitState),
      l.foldl (fun s2 p => visit ps (g+1) p.name s2) s
      = l.foldl (fun s2 p => visit ps g p.name s2) s := by
  intro l
  induction l with
  | nil => intro s; rfl
  | cons p rest ih =>
    intro s
    rw [List.foldl_cons, List.foldl_cons]
    rw [visit_stable ps g p.name s
      (le_trans (Nat.add_le_add_right (unvisited_le_length ps s.visited) 1) hg)]
    exact ih _

theorem sortByDependenciesFuel_stable (ps : List Plugin) :
    ∀ (f : Nat), ps.length + 1 ≤ f →
      sortByDependenciesFuel ps f = sortByDependenciesFuel ps (ps.length + 1) := by
  intro f
  induction f with
  | zero => intro h; omega
  | succ f ih =>
    intro h
    rcases Nat.lt_or_ge f (ps.length + 1) with hlt | hge
    · have heq : f + 1 = ps.length + 1 := by omega
      rw [heq]
    · have hstep : sortByDependenciesFuel ps (f+1) = sortByDependenciesFuel ps f := by
        unfold sortByDependenciesFuel
        exact foldl_top_congr ps f hge ps ⟨[], []⟩
      rw [hstep]
      exact ih hge

/-! ### The gray-set invariant of the DFS -/

theorem foldl_dep_gray (ps : List Plugin) (fuel : Nat)
    (IH : ∀ (d : String) (s : VisitState),
      unvisited ps s.visited + 1 ≤ fuel → d ∈ pluginNames ps →
      ((∀ k, (k ∈ (visit ps fuel d s).visited ∧
              ¬ k ∈ pluginNames (visit ps fuel d s).result)
          ↔ (k ∈ s.visited ∧ ¬ k ∈ pluginNames s.result)) ∧
       ((¬ d ∈ s.visited ∨ d ∈ pluginNames s.result) →
         d ∈ pluginNames (visit ps fuel d s).result) ∧
       (((pluginNames s.result).Nodup ∧ ∀ k ∈ pluginNames s.result, k ∈ s.visited) →
        ((pluginNames (visit ps fuel d s).result).Nodup ∧
         ∀ k ∈ pluginNames (visit ps fuel d s).result,
           k ∈ (visit ps fuel d s).visited)))) :
    ∀ (deps : List String) (s : VisitState),
      unvisited ps s.visited + 1 ≤ fuel →
      ((∀ k, (k ∈ (deps.foldl (fun acc d =>
              if (findPlugin ps d).isSome then visit ps fuel d acc else acc) s).visited ∧
              ¬ k ∈ pluginNames (deps.foldl (fun acc d =>
              if (findPlugin ps d).isSome then visit ps fuel d acc else acc) s).result)
          ↔ (k ∈ s.visited ∧ ¬ k ∈ pluginNames s.result)) ∧
       (((pluginNames s.result).Nodup ∧ ∀ k ∈ pluginNames s.result, k ∈ s.visited) →
        ((pluginNames (deps.foldl (fun acc d =>
              if (findPlugin ps d).isSome then visit ps fuel d acc else acc) s).result).Nodup ∧
         ∀ k ∈ pluginNames (deps.foldl (fun acc d =>
              if (findPlugin ps d).isSome then visit ps fuel d acc else acc) s).result,
           k ∈ (deps.foldl (fun acc d =>
              if (findPlugin ps d).isSome then visit ps fuel d acc else acc) s).visited))) := by
  intro deps
  induction deps with
  | nil =>
    intro s _
    exact ⟨fun k => Iff.rfl, fun h => h⟩
  | cons d rest ih =>
    intro s hs
    rw [List.foldl_cons]
    by_cases hd : (findPlugin ps d).isSome = true
    · rw [if_pos hd]
      have hdk : d ∈ pluginNames ps := (findPlugin_isSome_iff ps d).mp hd
      have hstep := IH d s hs hdk
      have hs' : unvisited ps (visit ps fuel d s).visited + 1 ≤ fuel := by
        have hmono := (visit_vstep ps fuel d s).vis_sub
        exact le_trans (Nat.add_le_add_right (unvisited_mono ps hmono) 1) hs
      have hrest := ih (visit ps fuel d s) hs'
      refine ⟨fun k => (hrest.1 k).trans (hstep.1 k), ?_⟩
      intro hK
      exact hrest.2 (hstep.2.2 hK)
    · rw [if_neg hd]
      exact ih s hs

theorem visit_gray (ps : List Plugin) :
    ∀ (fuel : Nat) (n : String) (s : VisitState),
      unvisited ps s.visited + 1 ≤ fuel → n ∈ pluginNames ps →
      ((∀ k, (k ∈ (visit ps fuel n s).visited ∧
              ¬ k ∈ pluginNames (visit ps fuel n s).result)
          ↔ (k ∈ s.visited ∧ ¬ k ∈ pluginNames s.result)) ∧
       ((¬ n ∈ s.visited ∨ n ∈ pluginNames s.result) →
         n ∈ pluginNames (visit ps fuel n s).result) ∧
       (((pluginNames s.result).Nodup ∧ ∀ k ∈ pluginNames s.result, k ∈ s.visited) →
        ((pluginNames (visit ps fuel n s).result).Nodup ∧
         ∀ k ∈ pluginNames (visit ps fuel n s).result,
           k ∈ (visit ps fuel n s).visited))) := by
  intro fuel
  induction fuel with
  | zero => intro n s hs _; omega
  | succ fuel ih =>
    intro n s hs hn
    by_cases hv : n ∈ s.visited
    · rw [visit_succ_mem ps fuel n s hv]
      refine ⟨fun k => Iff.rfl, ?_, fun h => h⟩
      intro hdisj
      rcases hdisj with h | h
      · exact absurd hv h
      · exact h
    · cases hf : findPlugin ps n with
      | none =>
        have hsome := (findPlugin_isSome_iff ps n).mpr hn
        rw [hf] at hsome
        cases hsome
      | some p =>
        rw [visit_succ_some ps fuel n s p hv hf]
        have hpn : p.name = n := (findPlugin_eq_some ps n p hf).2
        have hlt := unvisited_lt ps n s.visited hn hv
        have hs1 : unvisited ps (n :: s.visited) + 1 ≤ fuel := by omega
        have hfold := foldl_dep_gray ps fuel ih p.dependencies ⟨n :: s.visited, s.result⟩ hs1
        obtain ⟨G1, G2⟩ := hfold
        set s2 := p.dependencies.foldl (fun acc d =>
          if (findPlugin ps d).isSome then visit ps fuel d acc else acc)
          ⟨n :: s.visited, s.result⟩ with hs2def
        have hvs12 : ∀ k, k ∈ n :: s.visited → k ∈ s2.visited := by
          have := (foldl_dep_vstep ps fuel (visit_vstep ps fuel) p.dependencies
            ⟨n :: s.visited, s.result⟩).vis_sub
          exact this
        have hnames : pluginNames (s2.result ++ [p]) = pluginNames s2.result ++ [n] := by
          rw [pluginNames, List.map_append]
          simp [pluginNames, hpn]
        refine ⟨?_, ?_, ?_⟩
        · -- gray set unchanged
          intro k
          constructor
          · rintro ⟨hkv, hkr⟩
            rw [hnames] at hkr
            have hkr2 : ¬ k ∈ pluginNames s2.result := by
              intro hmem
              exact hkr (List.mem_append.mpr (Or.inl hmem))
            have hkn : ¬ k = n := by
              intro he
              exact hkr (List.mem_append.mpr (Or.inr (by simp [he])))
            have := (G1 k).mp ⟨hkv, hkr2⟩
            rcases List.mem_cons.mp this.1 with he | hks
            · exact absurd he hkn
            · exact ⟨hks, this.2⟩
          · rintro ⟨hkv, hkr⟩
            have hkn : ¬ k = n := by
              intro he
              exact hv (he ▸ hkv)
            have := (G1 k).mpr ⟨List.mem_cons_of_mem _ hkv, hkr⟩
            refine ⟨this.1, ?_⟩
            rw [hnames]
            intro hmem
            rcases List.mem_append.mp hmem with h1 | h2
            · exact this.2 h1
            · exact hkn (List.mem_singleton.mp h2)
        · -- the visited name ends up in the result
          intro _
          show n ∈ pluginNames (s2.result ++ [p])
          rw [hnames]
          exact List.mem_append.mpr (Or.inr (by simp))
        · -- nodup result names, and result names are visited
          rintro ⟨hK1, hK2⟩
          have hK1' : (pluginNames (⟨n :: s.visited, s.result⟩ : VisitState).result).Nodup := hK1
          have hK2' : ∀ k ∈ pluginNames (⟨n :: s.visited, s.result⟩ : VisitState).result,
              k ∈ (⟨n :: s.visited, s.result⟩ : VisitState).visited := by
            intro k hk
            exact List.mem_cons_of_mem _ (hK2 k hk)
          obtain ⟨hN2, hS2⟩ := G2 ⟨hK1', hK2'⟩
          have hngray : ¬ n ∈ pluginNames s2.result := by
            have hnr : ¬ n ∈ pluginNames s.result := by
              intro hmem
              exact hv (hK2 n hmem)
            exact ((G1 n).mpr ⟨List.mem_cons_self _ _, hnr⟩).2
          constructor
          · show (pluginNames (s2.result ++ [p])).Nodup
            rw [hnames, List.nodup_append]
            refine ⟨hN2, List.nodup_singleton n, ?_⟩
            intro a ha hb
            rw [List.mem_singleton.mp hb] at ha
            exact hngray ha
          · intro k hk
            show k ∈ s2.visited
            rw [show pluginNames ((⟨s2.visited, s2.result ++ [p]⟩ : VisitState).result)
                = pluginNames s2.result ++ [n] from hnames] at hk
            rcases List.mem_append.mp hk with h1 | h2
            · exact hS2 k h1
            · rw [List.mem_singleton.mp h2]
              exact hvs12 n (List.mem_cons_self _ _)

/-! ### Assembling `_sort_by_dependencies`: every registered plugin appears
exactly once -/

theorem foldl_top_vstep (ps : List Plugin) (F : Nat) :
    ∀ (l : List Plugin) (s : VisitState),
      VStep ps s (l.foldl (fun s2 p => visit ps F p.name s2) s) := by
  intro l
  induction l with
  | nil => intro s; exact vstep_refl ps s
  | cons p rest ih =>
    intro s
    rw [List.foldl_cons]
    exact vstep_trans (visit_vstep ps F p.name s) (ih _)

theorem sort_fold_gray (ps : List Plugin) :
    ∀ (l : List Plugin) (s : VisitState),
      (∀ p ∈ l, p ∈ ps) →
      (∀ k ∈ s.visited, k ∈ pluginNames s.result) →
      ((pluginNames s.result).Nodup ∧ ∀ k ∈ pluginNames s.result, k ∈ s.visited) →
      ((∀ k ∈ (l.foldl (fun s2 p => visit ps (ps.length + 1) p.name s2) s).visited,
          k ∈ pluginNames (l.foldl (fun s2 p => visit ps (ps.length + 1) p.name s2) s).result) ∧
       ((pluginNames (l.foldl (fun s2 p => visit ps (ps.length + 1) p.name s2) s).result).Nodup ∧
        ∀ k ∈ pluginNames (l.foldl (fun s2 p => visit ps (ps.length + 1) p.name s2) s).result,
          k ∈ (l.foldl (fun s2 p => visit ps (ps.length + 1) p.name s2) s).visited) ∧
       (∀ p ∈ l, p.name ∈ pluginNames
          (l.foldl (fun s2 p => visit ps (ps.length + 1) p.name s2) s).result)) := by
  intro l
  induction l with
  | nil =>
    intro s _ hG hK
    exact ⟨hG, hK, by intro p hp; cases hp⟩
  | cons p rest ih =>
    intro s hl hG hK
    rw [List.foldl_cons]
    have hpk : p.name ∈ pluginNames ps :=
      mem_pluginNames_of_mem (hl p (List.mem_cons_self _ _))
    have hfuel : unvisited ps s.visited + 1 ≤ ps.length + 1 :=
      Nat.add_le_add_right (unvisited_le_length ps s.visited) 1
    obtain ⟨g1, g2, g3⟩ := visit_gray ps (ps.length + 1) p.name s hfuel hpk
    set s' := visit ps (ps.length + 1) p.name s with hs'
    have hG' : ∀ k ∈ s'.visited, k ∈ pluginNames s'.result := by
      intro k hk
      by_contra hnk
      have hgray := (g1 k).mp ⟨hk, hnk⟩
      exact hgray.2 (hG k hgray.1)
    have hK' := g3 hK
    have hpname : p.name ∈ pluginNames s'.result := by
      by_cases hv : p.name ∈ s.visited
      · exact g2 (Or.inr (hG p.name hv))
      · exact g2 (Or.inl hv)
    have hrest := ih s' (fun q hq => hl q (List.mem_cons_of_mem _ hq)) hG' hK'
    refine ⟨hrest.1, hrest.2.1, ?_⟩
    intro q hq
    rcases List.mem_cons.mp hq with rfl | hmem
    · rcases (foldl_top_vstep ps (ps.length + 1) rest s').res_ext with ⟨r, hr⟩
      rw [hr, pluginNames, List.map_append]
      exact List.mem_append.mpr (Or.inl hpname)
    · exact hrest.2.2 q hmem

theorem sort_basic (ps : List Plugin) :
    (∀ p ∈ ps, p.name ∈ pluginNames (sortByDependencies ps)) ∧
    (pluginNames (sortByDependencies ps)).Nodup ∧
    (∀ p ∈ sortByDependencies ps, p ∈ ps) := by
  have h := sort_fold_gray ps ps ⟨[], []⟩ (fun p hp => hp)
    (by intro k hk; cases hk)
    ⟨List.nodup_nil, by intro k hk; cases hk⟩
  have hsrc := (foldl_top_vstep ps (ps.length + 1) ps ⟨[], []⟩).res_src
  refine ⟨?_, ?_, ?_⟩
  · intro p hp
    exact h.2.2 p hp
  · exact h.2.1.1
  · intro p hp
    rcases hsrc p hp with h1 | h1
    · cases h1
    · exact h1

theorem sort_perm (ps : List Plugin) (hnd : (pluginNames ps).Nodup) :
    (sortByDependencies ps).Perm ps := by
  obtain ⟨hcov, hnodup, hsrc⟩ := sort_basic ps
  have hndps : ps.Nodup := List.Nodup.of_map _ hnd
  have hndR : (sortByDependencies ps).Nodup := List.Nodup.of_map _ hnodup
  rw [List.perm_ext_iff_of_nodup hndR hndps]
  intro p
  constructor
  · exact fun hp => hsrc p hp
  · intro hp
    have hmem : p.name ∈ pluginNames (sortByDependencies ps) := hcov p hp
    rw [pluginNames] at hmem
    rcases List.mem_map.mp hmem with ⟨q, hq, hqn⟩
    have hqps : q ∈ ps := hsrc q hq
    have heq : q = p := plugin_name_inj hnd hqps hp hqn
    rw [← heq]
    exact hq

/-! ### C3: termination and exactly-once coverage -/

/-- C3: for every well-formed registry — including dependency lists that form
cycles or that name absent plugins — `_sort_by_dependencies` terminates and
its result is a permutation of the registry, i.e. every currently-registered
plugin appears exactly once (registry names are unique, so `Perm` is exactly
"no omissions, no repetitions").  Termination of the Python recursion is
reflected by fuel-indifference: any recursion-depth budget of at least
`length + 1` yields the same DFS state, so the embedded computation is the
fixed point of the recursion. -/
theorem sort_terminates_exactly_once (ps : List Plugin)
    (hnd : (pluginNames ps).Nodup) :
    (sortByDependencies ps).Perm ps ∧
    (∀ f, ps.length + 1 ≤ f →
      sortByDependenciesFuel ps f = sortByDependenciesFuel ps (ps.length + 1)) :=
  ⟨sort_perm ps hnd, sortByDependenciesFuel_stable ps⟩

/-- Witness for `sort_terminates_exactly_once` on a registry whose
dependencies form a cycle (`"A"` ↔ `"B"`) and also name the absent plugin
`"ghost"`. -/
theorem sort_terminates_exactly_once_witness :
    (sortByDependencies cycReg).Perm cycReg :=
  (sort_terminates_exactly_once cycReg (by decide)).1

/-! ### C6: initialization isolation -/

theorem findPlugin_map_name_pres (f : Plugin → Plugin)
    (hf : ∀ q, (f q).name = q.name) (n : String) :
    ∀ (ps : List Plugin), findPlugin (ps.map f) n = (findPlugin ps n).map f := by
  intro ps
  induction ps with
  | nil => rfl
  | cons q rest ih =>
    unfold findPlugin
    rw [List.map_cons, List.find?_cons, List.find?_cons]
    have hb : ((f q).name == n) = (q.name == n) := by rw [hf]
    rw [hb]
    cases hqn : (q.name == n) with
    | false =>
      unfold findPlugin at ih
      exact ih
    | true => rfl

/-- C6: with an app bound, the ordered initialization pass is failure
isolated.  Every registered plugin `p` — regardless of whether other
plugins' `init_app` hooks raise — has its `init_app` invoked with the shared
context (its event appears in the trace and its `_app` is assigned), and its
registry entry afterwards is exactly `initAppUpdate a p`: `enabled` is
forced to `False` when its own `init_app` raises, and is otherwise left as
it was (`True` for a freshly registered plugin). -/
theorem init_isolation (st : LoaderState) (a : Nat) (p : Plugin)
    (happ : st.app = some a)
    (hnd : (pluginNames st.plugins).Nodup)
    (hp : p ∈ st.plugins) :
    HookEvent.initApp p.name ∈ (initAllPlugins st).2 ∧
    findPlugin (initAllPlugins st).1.plugins p.name = some (initAppUpdate a p) ∧
    (initAppUpdate a p).app = some a ∧
    (p.initAppRaises = true → (initAppUpdate a p).enabled = false) ∧
    (p.initAppRaises = false → (initAppUpdate a p).enabled = p.enabled) := by
  obtain ⟨hplug, hev, -, -, -⟩ := initAllPlugins_eq st a happ
  have hcov := (sort_basic st.plugins).1 p hp
  refine ⟨?_, ?_, rfl, ?_, ?_⟩
  · rw [hev]
    rw [pluginNames] at hcov
    rcases List.mem_map.mp hcov with ⟨q, hq, hqn⟩
    have hmem1 := List.mem_map_of_mem (fun r => HookEvent.initApp r.name) hq
    have hmem2 : HookEvent.initApp q.name
        ∈ List.map (fun r => HookEvent.initApp r.name) (sortByDependencies st.plugins) := by
      simpa using hmem1
    rw [hqn] at hmem2
    exact hmem2
  · rw [hplug]
    rw [findPlugin_map_name_pres _ ?hf p.name st.plugins]
    case hf =>
      intro q
      by_cases h : q.name ∈ pluginNames (sortByDependencies st.plugins)
      · rw [if_pos h, initAppUpdate_name]
      · rw [if_neg h]
    rw [findPlugin_of_mem_nodup st.plugins hnd hp]
    rw [show Option.map (fun q => if q.name ∈ pluginNames (sortByDependencies st.plugins)
          then initAppUpdate a q else q) (some p)
        = some (if p.name ∈ pluginNames (sortByDependencies st.plugins)
          then initAppUpdate a p else p) from rfl]
    rw [if_pos hcov]
  · intro h
    unfold initAppUpdate
    rw [h]
    rfl
  · intro h
    unfold initAppUpdate
    rw [h]
    rfl

/-- Witness for `init_isolation`: plugin `"bad"` raises in `init_app`,
plugin `"ok"` does not; `"ok"` is still initialized and keeps
`enabled = True` in the final registry. -/
theorem init_isolation_witness :
    findPlugin (initAllPlugins
        ⟨some 0, [{ mkPlugin "bad" [] with initAppRaises := true }, mkPlugin "ok" []],
         [], false⟩).1.plugins (mkPlugin "ok" []).name
      = some (initAppUpdate 0 (mkPlugin "ok" [])) :=
  (init_isolation
    ⟨some 0, [{ mkPlugin "bad" [] with initAppRaises := true }, mkPlugin "ok" []], [], false⟩
    0 (mkPlugin "ok" []) rfl (by decide) (by simp)).2.1

/-! ### The ordering invariant under acyclic dependencies -/

theorem depsRespected_nil (ps : List Plugin) : depsRespected ps [] := by
  intro i hi
  cases hi

theorem depsRespected_append (ps : List Plugin) (l : List Plugin) (p : Plugin)
    (hl : depsRespected ps l)
    (hp : ∀ d ∈ p.dependencies, d ∈ pluginNames ps → d ∈ pluginNames l) :
    depsRespected ps (l ++ [p]) := by
  intro i hi d hd hdk
  by_cases hlt : i < l.length
  · have hget : (l ++ [p]).get ⟨i, hi⟩ = l.get ⟨i, hlt⟩ := by
      simp [List.get_eq_getElem, List.getElem_append_left hlt]
    rw [hget] at hd
    rcases hl i hlt d hd hdk with ⟨j, hj, hji, hjd⟩
    have hj2 : j < (l ++ [p]).length := by
      rw [List.length_append]
      omega
    refine ⟨j, hj2, hji, ?_⟩
    have hgetj : (l ++ [p]).get ⟨j, hj2⟩ = l.get ⟨j, hj⟩ := by
      simp [List.get_eq_getElem, List.getElem_append_left hj]
    rw [hgetj, hjd]
  · have hieq : i = l.length := by
      have hlen := hi
      rw [List.length_append, List.length_singleton] at hlen
      omega
    subst hieq
    have hget : (l ++ [p]).get ⟨l.length, hi⟩ = p := by
      simp [List.get_eq_getElem]
    rw [hget] at hd
    have hmem := hp d hd hdk
    rw [pluginNames] at hmem
    rcases List.mem_map.mp hmem with ⟨q, hq, hqn⟩
    rcases List.mem_iff_get.mp hq with ⟨⟨j, hj⟩, hget2⟩
    have hj2 : j < (l ++ [p]).length := by
      rw [List.length_append]
      omega
    refine ⟨j, hj2, by omega, ?_⟩
    have hgetj : (l ++ [p]).get ⟨j, hj2⟩ = l.get ⟨j, hj⟩ := by
      simp [List.get_eq_getElem, List.getElem_append_left hj]
    rw [hgetj, hget2, hqn]

theorem foldl_dep_rank (ps : List Plugin) (rk : String → Nat) (fuel : Nat) (bound : Nat)
    (IH : ∀ (n : String) (s : VisitState),
      unvisited ps s.visited + 1 ≤ fuel → n ∈ pluginNames ps →
      (∀ g ∈ s.visited, ¬ g ∈ pluginNames s.result → rk n < rk g) →
      depsRespected ps s.result →
      (∀ k ∈ pluginNames s.result, k ∈ s.visited) →
      (depsRespected ps (visit ps fuel n s).result ∧
       (∀ k ∈ pluginNames (visit ps fuel n s).result, k ∈ (visit ps fuel n s).visited) ∧
       n ∈ pluginNames (visit ps fuel n s).result)) :
    ∀ (deps : List String) (s : VisitState),
      (∀ d ∈ deps, d ∈ pluginNames ps → rk d < bound) →
      unvisited ps s.visited + 1 ≤ fuel →
      (∀ g ∈ s.visited, ¬ g ∈ pluginNames s.result → bound ≤ rk g) →
      depsRespected ps s.result →
      (∀ k ∈ pluginNames s.result, k ∈ s.visited) →
      (depsRespected ps (deps.foldl (fun acc d =>
          if (findPlugin ps d).isSome then visit ps fuel d acc else acc) s).result ∧
       (∀ k ∈ pluginNames (deps.foldl (fun acc d =>
          if (findPlugin ps d).isSome then visit ps fuel d acc else acc) s).result,
          k ∈ (deps.foldl (fun acc d =>
          if (findPlugin ps d).isSome then visit ps fuel d acc else acc) s).visited) ∧
       (∀ k, (k ∈ (deps.foldl (fun acc d =>
          if (findPlugin ps d).isSome then visit ps fuel d acc else acc) s).visited ∧
          ¬ k ∈ pluginNames (deps.foldl (fun acc d =>
          if (findPlugin ps d).isSome then visit ps fuel d acc else acc) s).result)
          ↔ (k ∈ s.visited ∧ ¬ k ∈ pluginNames s.result)) ∧
       (∀ d ∈ deps, d ∈ pluginNames ps →
          d ∈ pluginNames (deps.foldl (fun acc d =>
          if (findPlugin ps d).isSome then visit ps fuel d acc else acc) s).result)) := by
  intro deps
  induction deps with
  | nil =>
    intro s _ _ _ hR hS
    exact ⟨hR, hS, fun k => Iff.rfl, by intro d hd; cases hd⟩
  | cons d rest ih =>
    intro s hrk hs hG hR hS
    rw [List.foldl_cons]
    by_cases hd : (findPlugin ps d).isSome = true
    · rw [if_pos hd]
      have hdk : d ∈ pluginNames ps := (findPlugin_isSome_iff ps d).mp hd
      have hrd : rk d < bound := hrk d (List.mem_cons_self _ _) hdk
      have hGd : ∀ g ∈ s.visited, ¬ g ∈ pluginNames s.result → rk d < rk g :=
        fun g hg hng => lt_of_lt_of_le hrd (hG g hg hng)
      obtain ⟨hR1, hS1, hd1⟩ := IH d s hs hdk hGd hR hS
      have hfuel1 : unvisited ps (visit ps fuel d s).visited + 1 ≤ fuel := by
        have hmono := (visit_vstep ps fuel d s).vis_sub
        exact le_trans (Nat.add_le_add_right (unvisited_mono ps hmono) 1) hs
      have hgray := (visit_gray ps fuel d s hs hdk).1
      have hG1 : ∀ g ∈ (visit ps fuel d s).visited,
          ¬ g ∈ pluginNames (visit ps fuel d s).result → bound ≤ rk g := by
        intro g hg hng
        have hg2 := (hgray g).mp ⟨hg, hng⟩
        exact hG g hg2.1 hg2.2
      have hrkrest : ∀ e ∈ rest, e ∈ pluginNames ps → rk e < bound :=
        fun e he => hrk e (List.mem_cons_of_mem _ he)
      obtain ⟨hRr, hSr, hGr, hDr⟩ := ih (visit ps fuel d s) hrkrest hfuel1 hG1 hR1 hS1
      refine ⟨hRr, hSr, fun k => (hGr k).trans (hgray k), ?_⟩
      intro e he hek
      rcases List.mem_cons.mp he with rfl | hmem
      · rcases (foldl_dep_vstep ps fuel (visit_vstep ps fuel) rest
          (visit ps fuel e s)).res_ext with ⟨r, hr⟩
        rw [hr, pluginNames, List.map_append]
        exact List.mem_append.mpr (Or.inl hd1)
      · exact hDr e hmem hek
    · rw [if_neg hd]
      have hrkrest : ∀ e ∈ rest, e ∈ pluginNames ps → rk e < bound :=
        fun e he => hrk e (List.mem_cons_of_mem _ he)
      obtain ⟨hRr, hSr, hGr, hDr⟩ := ih s hrkrest hs hG hR hS
      refine ⟨hRr, hSr, hGr, ?_⟩
      intro e he hek
      rcases List.mem_cons.mp he with rfl | hmem
      · exact absurd ((findPlugin_isSome_iff ps e).mpr hek) hd
      · exact hDr e hmem hek

theorem visit_rank (ps : List Plugin) (rk : String → Nat) (hrkG : RankHyp ps rk) :
    ∀ (fuel : Nat) (n : String) (s : VisitState),
      unvisited ps s.visited + 1 ≤ fuel → n ∈ pluginNames ps →
      (∀ g ∈ s.visited, ¬ g ∈ pluginNames s.result → rk n < rk g) →
      depsRespected ps s.result →
      (∀ k ∈ pluginNames s.result, k ∈ s.visited) →
      (depsRespected ps (visit ps fuel n s).result ∧
       (∀ k ∈ pluginNames (visit ps fuel n s).result, k ∈ (visit ps fuel n s).visited) ∧
       n ∈ pluginNames (visit ps fuel n s).result) := by
  intro fuel
  induction fuel with
  | zero => intro n s hs _ _ _ _; omega
  | succ fuel ih =>
    intro n s hs hn hG hR hS
    by_cases hv : n ∈ s.visited
    · rw [visit_succ_mem ps fuel n s hv]
      refine ⟨hR, hS, ?_⟩
      by_contra hnr
      exact absurd (hG n hv hnr) (lt_irrefl _)
    · cases hf : findPlugin ps n with
      | none =>
        have hsome := (findPlugin_isSome_iff ps n).mpr hn
        rw [hf] at hsome
        cases hsome
      | some p =>
        rw [visit_succ_some ps fuel n s p hv hf]
        have hpn : p.name = n := (findPlugin_eq_some ps n p hf).2
        have hpmem : p ∈ ps := (findPlugin_eq_some ps n p hf).1
        have hlt := unvisited_lt ps n s.visited hn hv
        have hs1 : unvisited ps (n :: s.visited) + 1 ≤ fuel := by omega
        have hrk1 : ∀ d ∈ p.dependencies, d ∈ pluginNames ps → rk d < rk n := by
          intro d hd hdk
          have := hrkG p hpmem d hd hdk
          rw [hpn] at this
          exact this
        have hG1 : ∀ g ∈ n :: s.visited,
            ¬ g ∈ pluginNames (⟨n :: s.visited, s.result⟩ : VisitState).result →
            rk n ≤ rk g := by
          intro g hg hng
          rcases List.mem_cons.mp hg with rfl | hgs
          · exact le_refl _
          · exact le_of_lt (hG g hgs hng)
        have hS1 : ∀ k ∈ pluginNames (⟨n :: s.visited, s.result⟩ : VisitState).result,
            k ∈ (⟨n :: s.visited, s.result⟩ : VisitState).visited := by
          intro k hk
          exact List.mem_cons_of_mem _ (hS k hk)
        obtain ⟨hR2, hS2, hGr2, hD2⟩ := foldl_dep_rank ps rk fuel (rk n) ih
          p.dependencies ⟨n :: s.visited, s.result⟩ hrk1 hs1 hG1 hR hS1
        set s2 := p.dependencies.foldl (fun acc d =>
          if (findPlugin ps d).isSome then visit ps fuel d acc else acc)
          ⟨n :: s.visited, s.result⟩ with hs2def
        have hvs12 : ∀ k, k ∈ n :: s.visited → k ∈ s2.visited :=
          (foldl_dep_vstep ps fuel (visit_vstep ps fuel) p.dependencies
            ⟨n :: s.visited, s.result⟩).vis_sub
        have hnames : pluginNames (s2.result ++ [p]) = pluginNames s2.result ++ [n] := by
          rw [pluginNames, List.map_append]
          simp [pluginNames, hpn]
        refine ⟨?_, ?_, ?_⟩
        · show depsRespected ps (s2.result ++ [p])
          apply depsRespected_append ps s2.result p hR2
          intro d hd hdk
          exact hD2 d hd hdk
        · intro k hk
          show k ∈ s2.visited
          rw [show pluginNames ((⟨s2.visited, s2.result ++ [p]⟩ : VisitState).result)
              = pluginNames s2.result ++ [n] from hnames] at hk
          rcases List.mem_append.mp hk with h1 | h2
          · exact hS2 k h1
          · rw [List.mem_singleton.mp h2]
            exact hvs12 n (List.mem_cons_self _ _)
        · show n ∈ pluginNames (s2.result ++ [p])
          rw [hnames]
          exact List.mem_append.mpr (Or.inr (by simp))

theorem sort_fold_rank (ps : List Plugin) (rk : String → Nat) (hrkG : RankHyp ps rk) :
    ∀ (l : List Plugin) (s : VisitState),
      (∀ p ∈ l, p ∈ ps) →
      (∀ k ∈ s.visited, k ∈ pluginNames s.result) →
      depsRespected ps s.result →
      (∀ k ∈ pluginNames s.result, k ∈ s.visited) →
      (depsRespected ps (l.foldl (fun s2 p => visit ps (ps.length + 1) p.name s2) s).result ∧
       (∀ k ∈ (l.foldl (fun s2 p => visit ps (ps.length + 1) p.name s2) s).visited,
          k ∈ pluginNames (l.foldl (fun s2 p => visit ps (ps.length + 1) p.name s2) s).result) ∧
       (∀ k ∈ pluginNames (l.foldl (fun s2 p => visit ps (ps.length + 1) p.name s2) s).result,
          k ∈ (l.foldl (fun s2 p => visit ps (ps.length + 1) p.name s2) s).visited)) := by
  intro l
  induction l with
  | nil =>
    intro s _ hG hR hS
    exact ⟨hR, hG, hS⟩
  | cons p rest ih =>
    intro s hl hG hR hS
    rw [List.foldl_cons]
    have hpk : p.name ∈ pluginNames ps :=
      mem_pluginNames_of_mem (hl p (List.mem_cons_self _ _))
    have hfuel : unvisited ps s.visited + 1 ≤ ps.length + 1 :=
      Nat.add_le_add_right (unvisited_le_length ps s.visited) 1
    have hGstrict : ∀ g ∈ s.visited, ¬ g ∈ pluginNames s.result → rk p.name < rk g := by
      intro g hg hng
      exact absurd (hG g hg) hng
    obtain ⟨hR1, hS1, -⟩ :=
      visit_rank ps rk hrkG (ps.length + 1) p.name s hfuel hpk hGstrict hR hS
    have hgray := (visit_gray ps (ps.length + 1) p.name s hfuel hpk).1
    have hG1 : ∀ k ∈ (visit ps (ps.length + 1) p.name s).visited,
        k ∈ pluginNames (visit ps (ps.length + 1) p.name s).result := by
      intro k hk
      by_contra hnk
      have hg2 := (hgray k).mp ⟨hk, hnk⟩
      exact hg2.2 (hG k hg2.1)
    exact ih (visit ps (ps.length + 1) p.name s)
      (fun q hq => hl q (List.mem_cons_of_mem _ hq)) hG1 hR1 hS1

theorem sort_depsRespected (ps : List Plugin) (rk : String → Nat) (hrkG : RankHyp ps rk) :
    depsRespected ps (sortByDependencies ps) := by
  have h := sort_fold_rank ps rk hrkG ps ⟨[], []⟩ (fun p hp => hp)
    (by intro k hk; cases hk) (depsRespected_nil ps) (by intro k hk; cases hk)
  exact h.1

/-! ### C1: dependency ordering (corrected — requires acyclic dependencies) -/

/-- C1 counterexample: with the cyclic registry `cycReg = [A ↦ ["B"], B ↦
["A","ghost"]]`, `_sort_by_dependencies` returns `[B, A]`.  The pair
`P := B`, `D := A` has both plugins present and `D`'s name in `P`'s declared
dependency list, yet `D` does not appear strictly before `P` in the
sequence, so the claim as stated is false. -/
theorem sort_respects_dependencies_cex :
    cplA ∈ cycReg ∧ cplB ∈ cycReg ∧ cplA.name ∈ cplB.dependencies ∧
    ¬ appearsBefore (sortByDependencies cycReg) cplA cplB := by
  decide

/-- C1 amended: provided the dependency relation restricted to the registry
is acyclic — witnessed by a rank function under which every registered
dependency ranks strictly below its dependent — every pair `P`, `D` of
registered plugins with `D`'s name among `P`'s declared dependencies has `D`
strictly before `P` in the `_sort_by_dependencies` output, and hence `D`'s
`init_app` event strictly before `P`'s in the initialization pass.  (The
original claim, with no acyclicity proviso, fails on dependency cycles:
`sort_respects_dependencies_cex`.) -/
theorem sort_respects_dependencies (st : LoaderState) (a : Nat) (rk : String → Nat)
    (happ : st.app = some a)
    (hnd : (pluginNames st.plugins).Nodup)
    (hrk : RankHyp st.plugins rk)
    (P D : Plugin) (hP : P ∈ st.plugins) (hD : D ∈ st.plugins)
    (hdep : D.name ∈ P.dependencies) :
    appearsBefore (sortByDependencies st.plugins) D P ∧
    appearsBefore (initAllPlugins st).2
      (HookEvent.initApp D.name) (HookEvent.initApp P.name) := by
  have hresp := sort_depsRespected st.plugins rk hrk
  obtain ⟨hcov, hnodupR, hsrc⟩ := sort_basic st.plugins
  have hPmem : P ∈ sortByDependencies st.plugins := by
    have hm := hcov P hP
    rw [pluginNames] at hm
    rcases List.mem_map.mp hm with ⟨q, hq, hqn⟩
    have heq : q = P := plugin_name_inj hnd (hsrc q hq) hP hqn
    rw [← heq]
    exact hq
  rcases List.mem_iff_get.mp hPmem with ⟨⟨i, hi⟩, hgetP⟩
  have hDk : D.name ∈ pluginNames st.plugins := mem_pluginNames_of_mem hD
  have hdepi : D.name ∈ ((sortByDependencies st.plugins).get ⟨i, hi⟩).dependencies := by
    rw [hgetP]
    exact hdep
  rcases hresp i hi D.name hdepi hDk with ⟨j, hj, hji, hjd⟩
  have hgetD : (sortByDependencies st.plugins).get ⟨j, hj⟩ = D := by
    have hmem : (sortByDependencies st.plugins).get ⟨j, hj⟩ ∈ sortByDependencies st.plugins :=
      List.get_mem _ _ _
    exact plugin_name_inj hnd (hsrc _ hmem) hD hjd
  have h1 : appearsBefore (sortByDependencies st.plugins) D P :=
    ⟨⟨j, hj⟩, ⟨i, hi⟩, hji, hgetD, hgetP⟩
  refine ⟨h1, ?_⟩
  obtain ⟨-, hev, -, -, -⟩ := initAllPlugins_eq st a happ
  rw [hev]
  have hjm : j < (List.map (fun p => HookEvent.initApp p.name)
      (sortByDependencies st.plugins)).length := by
    rw [List.length_map]
    exact hj
  have him : i < (List.map (fun p => HookEvent.initApp p.name)
      (sortByDependencies st.plugins)).length := by
    rw [List.length_map]
    exact hi
  refine ⟨⟨j, hjm⟩, ⟨i, him⟩, hji, ?_, ?_⟩
  · have hgm : (List.map (fun p => HookEvent.initApp p.name)
        (sortByDependencies st.plugins)).get ⟨j, hjm⟩
        = HookEvent.initApp ((sortByDependencies st.plugins).get ⟨j, hj⟩).name := by
      simp [List.get_eq_getElem]
    rw [hgm, hgetD]
  · have hgm : (List.map (fun p => HookEvent.initApp p.name)
        (sortByDependencies st.plugins)).get ⟨i, him⟩
        = HookEvent.initApp ((sortByDependencies st.plugins).get ⟨i, hi⟩).name := by
      simp [List.get_eq_getElem]
    rw [hgm, hgetP]

/-- Witness for `sort_respects_dependencies`: the spec's scenario — A with no
dependencies, B depending on A, C depending on B, discovered in the order
C, A, B — where A initializes strictly before B. -/
theorem sort_respects_dependencies_witness :
    appearsBefore (sortByDependencies aclReg) aclA aclB :=
  (sort_respects_dependencies ⟨some 0, aclReg, [], false⟩ 0
    (fun n => if n = "A" then 0 else if n = "B" then 1 else 2)
    rfl (by decide) (by unfold RankHyp; decide)
    aclB aclA (by decide) (by decide) (by decide)).1
